import Mathlib

/-!
Shallow embedding of the spectral-norm benchmark (`src/index.ts`).

Floating-point `Float64Array` contents are modelled by exact rationals `ℚ`;
the claims settled here concern the algebraic and structural behaviour of
the program (which entries are written, in which order terms are summed,
which messages are sent), not rounding of IEEE doubles.  Machine-integer
effects that do matter — the 32-bit truncation performed by JavaScript's
unsigned right shift inside `a` — are modelled explicitly with `% 2 ^ 32`.
-/

namespace SpectralNorm

/-- The expression `(i + j) * (i + j + 1) >>> 1` from line 183 of
`src/index.ts`: JavaScript `>>>` first converts its left operand with
`ToUint32` (reduction modulo `2 ^ 32`; the double product is exact for the
argument sizes for which any theorem below is stated) and then shifts,
i.e. divides by two. -/
def tri32 (s : ℕ) : ℕ := s * (s + 1) % 2 ^ 32 / 2

/-- `function a(i, j) { return ((i + j) * (i + j + 1) >>> 1) + i + 1; }`
(`src/index.ts` lines 182-184).  Note that it returns the *denominator*
of the matrix entry; the reciprocal is taken by the callers `au`/`atu`,
which divide by `a(i, j)`. -/
def a (i j : ℕ) : ℕ := tri32 (i + j) + i + 1

/-- The value of `a(i, j)` as the double it becomes when used as the
divisor in `au`/`atu` (exact: it is a small integer). -/
def aQ (i j : ℕ) : ℚ := (a i j : ℚ)

/-- The spec's `triangular(k) = k*(k+1)/2` (exact, no truncation). -/
def triangular (k : ℕ) : ℕ := k * (k + 1) / 2

/-- The value the spec's contract in §4.1 claims `a(i, j)` returns:
`1.0 / (triangular(i+j) + i + 1)`.  Stated from the spec's words, for
comparison against `a` from the source. -/
def aSpecClaimed (i j : ℕ) : ℚ := 1 / ((triangular (i + j) : ℚ) + i + 1)

/-- Inner loop of `au` (`src/index.ts` lines 164-167): running accumulator
`t`, `j` ascending over `[0, n)`, adding `u[j] / a(i, j)`. -/
def innerAu (n i : ℕ) (src : ℕ → ℚ) : ℚ :=
  (List.range n).foldl (fun t j => t + src j / aQ i j) 0

/-- Inner loop of `atu` (`src/index.ts` lines 174-177): as `innerAu` but
dividing by `a(j, i)`. -/
def innerAtu (n i : ℕ) (src : ℕ → ℚ) : ℚ :=
  (List.range n).foldl (fun t j => t + src j / aQ j i) 0

/-- Sequential row writes `v[i] = t` of the outer loops of `au`/`atu`:
fold over the visited row indices, updating the destination vector at each.
The written value `g i` depends only on the (snapshot of the) source
vector, matching the program, where source and destination are distinct
buffers in every dispatched work unit. -/
def writeRows (g : ℕ → ℚ) (idxs : List ℕ) (dst : ℕ → ℚ) : ℕ → ℚ :=
  idxs.foldl (fun d i => Function.update d i (g i)) dst

/-- `function au(u, v)` (`src/index.ts` lines 162-170): for each row `i`
in `[start, end)` write `v[i] = Σ_j u[j] / a(i, j)`.  The loop
`for (let i = start; i < end; i++)` visits `List.range' s (e - s)`. -/
def au (n s e : ℕ) (src dst : ℕ → ℚ) : ℕ → ℚ :=
  writeRows (fun i => innerAu n i src) (List.range' s (e - s)) dst

/-- `function atu(u, v)` (`src/index.ts` lines 172-180). -/
def atu (n s e : ℕ) (src dst : ℕ → ℚ) : ℕ → ℚ :=
  writeRows (fun i => innerAtu n i src) (List.range' s (e - s)) dst

/-- `const chunk = Math.ceil(n / cpus)` (`src/index.ts` line 91), as the
exact ceiling division (the double quotient `n / cpus` is close enough to
the rational value that `Math.ceil` agrees with `⌈n / P⌉` for every
realistic `n` and cpu count). -/
def chunk (n P : ℕ) : ℕ := (n + P - 1) / P

/-- `const start = i * chunk` (`src/index.ts` line 94). -/
def wStart (n P k : ℕ) : ℕ := k * chunk n P

/-- `let end = start + chunk; if (end > n) end = n` (lines 95-98). -/
def wEnd (n P k : ℕ) : ℕ := min (wStart n P k + chunk n P) n

/-- The set of row indices worker `k` iterates over (`for i = start;
i < end`), as a finite set.  Empty when `start ≥ end`. -/
def rowRange (n P k : ℕ) : Finset ℕ := Finset.Ico (wStart n P k) (wEnd n P k)

/-- The shared buffer's three length-`n` views `u`, `v`, `w`
(`src/index.ts` lines 42-46 and 137-141). -/
structure UVW where
  u : ℕ → ℚ
  v : ℕ → ℚ
  w : ℕ → ℚ

/-- `type UVWField = keyof UVW` (`src/index.ts` line 48). -/
inductive UVWField where
  | u
  | v
  | w
deriving DecidableEq, Repr

/-- Field read `data[field]` on the shared triple. -/
def UVW.get (s : UVW) : UVWField → (ℕ → ℚ)
  | .u => s.u
  | .v => s.v
  | .w => s.w

/-- Replacing one named vector of the triple (the effect, on the shared
store, of a worker pass writing that vector). -/
def UVW.set (s : UVW) : UVWField → (ℕ → ℚ) → UVW
  | .u, f => ⟨f, s.v, s.w⟩
  | .v, f => ⟨s.u, f, s.w⟩
  | .w, f => ⟨s.u, s.v, f⟩

/-- Combined effect on the destination vector of one `Au` work unit after
its barrier: every worker `k < P` has run `au` over its row range against
the same (unchanged) source vector.  The ranges are disjoint, so the
sequential fold equals the concurrent execution. -/
def runAu (n P : ℕ) (src dst : ℕ → ℚ) : ℕ → ℚ :=
  (List.range P).foldl (fun d k => au n (wStart n P k) (wEnd n P k) src d) dst

/-- Combined effect of one `Atu` work unit after its barrier. -/
def runAtu (n P : ℕ) (src dst : ℕ → ℚ) : ℕ → ℚ :=
  (List.range P).foldl (fun d k => atu n (wStart n P k) (wEnd n P k) src d) dst

/-- `async function atAu(u, v, w)` (`src/index.ts` lines 84-87): dispatch
`{Au, vec1: x, vec2: wf}` (workers run `au(data[x], data[wf])`) and
barrier, then `{Atu, vec1: wf, vec2: y}` (workers run
`atu(data[wf], data[y])`) and barrier. -/
def atAu (n P : ℕ) (x y wf : UVWField) (s : UVW) : UVW :=
  let s1 := s.set wf (runAu n P (s.get x) (s.get wf))
  s1.set y (runAtu n P (s1.get wf) (s1.get y))

/-- Initial shared store (`src/index.ts` lines 59-61): the buffer is
zero-initialized and `u` is filled with `1` over its `n` entries. -/
def initUVW (n : ℕ) : UVW :=
  ⟨fun i => if i < n then 1 else 0, fun _ => 0, fun _ => 0⟩

/-- The coordinator's iteration loop (`src/index.ts` lines 66-69):
`for (let i = 0; i < 10; i++) { await atAu('u','v','w'); await
atAu('v','u','w'); }`. -/
def powerLoop (n P : ℕ) : UVW :=
  (List.range 10).foldl
    (fun s _ => atAu n P .v .u .w (atAu n P .u .v .w s)) (initUVW n)

/-- The final reduction loop (`src/index.ts` lines 73-78): one pass with
two running accumulators, `vBv += u[i]*v[i]` and `vv += v[i]*v[i]`. -/
def reduction (n : ℕ) (s : UVW) : ℚ × ℚ :=
  (List.range n).foldl
    (fun p i => (p.1 + s.u i * s.v i, p.2 + s.v i * s.v i)) (0, 0)

/-- The single line the program prints.  `Math.sqrt` of a positive ratio
is irrational in general, so the printed value is kept symbolic:
`sqrtFixed9 x` stands for the string `Math.sqrt(x).toFixed(9)` — the
square root of `x` formatted with exactly 9 digits after the decimal
point.  `nanLine` is the string `"NaN"` (`toFixed` of a NaN), printed
when the ratio is `0/0` or the radicand is negative; `infLine` is
`"Infinity"`. -/
inductive JSOut where
  | nanLine
  | infLine
  | sqrtFixed9 (x : ℚ)
deriving DecidableEq, Repr

/-- `const result = Math.sqrt(vBv / vv); console.log(result.toFixed(9))`
(`src/index.ts` lines 80-82), with JavaScript division and square-root
special cases made explicit: `0/0` is NaN, `positive/0` is Infinity,
`negative/0` is -Infinity whose square root is NaN, and the square root
of a negative ratio is NaN. -/
def finalPrint (vBv vv : ℚ) : JSOut :=
  if vv = 0 then
    if vBv = 0 then .nanLine
    else if 0 < vBv then .infLine
    else .nanLine
  else if vBv / vv < 0 then .nanLine
  else .sqrtFixed9 (vBv / vv)

/-- The line printed by `mainThread` for problem size `n` and worker
count `P` (valid-input path, `n` a positive integer). -/
def mainPrinted (n P : ℕ) : JSOut :=
  finalPrint (reduction n (powerLoop n P)).1 (reduction n (powerLoop n P)).2

/-- Worker-side construction of the three views over the shared buffer
(`src/index.ts` lines 137-141): byte offsets `0`, `8n`, `16n`, i.e.
element offsets `0`, `n`, `2n`. -/
def mkViews (n : ℕ) (data : ℕ → ℚ) : UVW :=
  ⟨fun i => data i, fun i => data (n + i), fun i => data (2 * n + i)⟩

/-- The tagged message protocol (`src/index.ts` lines 12-40): `Sab`
carries the shared buffer, `Au`/`Atu` carry two field names, `Exit`
carries nothing. -/
inductive WMsg where
  | sabMsg (data : ℕ → ℚ)
  | auMsg (vec1 vec2 : UVWField)
  | atuMsg (vec1 vec2 : UVWField)
  | exitMsg

/-- Observable outcome of one worker message-handler invocation: the new
value of the worker's `data` variable, how many completion messages
(`parentPort.postMessage({})`) it posted, and whether it called
`process.exit()`. -/
structure WOut where
  state : Option UVW
  acks : ℕ
  exited : Bool

/-- The worker's message handler (`src/index.ts` lines 134-160).  `data`
starts `undefined` (modelled `none`); a compute message received while it
is still `undefined` throws (`Except.error` with the thrown message) —
no state change, no completion message.  `au`/`atu` write the vector
named `vec2` from the vector named `vec1` over the worker's row range. -/
def workerHandle (n s e : ℕ) (st : Option UVW) (m : WMsg) :
    Except String WOut :=
  match m with
  | .sabMsg data => .ok ⟨some (mkViews n data), 0, false⟩
  | .auMsg v1 v2 =>
    match st with
    | none => .error "Au received before Sab"
    | some d => .ok ⟨some (d.set v2 (au n s e (d.get v1) (d.get v2))), 1, false⟩
  | .atuMsg v1 v2 =>
    match st with
    | none => .error "Atu received before Sab"
    | some d => .ok ⟨some (d.set v2 (atu n s e (d.get v1) (d.get v2))), 1, false⟩
  | .exitMsg => .ok ⟨st, 0, true⟩

/-!
### Invalid-input model

`mainThread` is invoked as `mainThread(+process.argv[2])` (line 53).  The
unary `+` applies JavaScript `ToNumber`: a missing argument
(`undefined`) or a non-numeric string becomes `NaN`.  To settle the
error-handling claim the NaN-propagation of the arithmetic actually
performed on `n` is modelled explicitly with `JNum`.
-/

/-- A JavaScript number as used for the problem size: NaN or a rational.
(Infinities do not arise on the modelled paths: the only division is by
the cpu count, which is at least 1.) -/
inductive JNum where
  | nan
  | num (q : ℚ)
deriving DecidableEq, Repr

/-- JavaScript addition restricted to the values above: NaN absorbs. -/
def jadd : JNum → JNum → JNum
  | .num x, .num y => .num (x + y)
  | _, _ => .nan

/-- JavaScript multiplication: NaN absorbs. -/
def jmul : JNum → JNum → JNum
  | .num x, .num y => .num (x * y)
  | _, _ => .nan

/-- JavaScript division as used in `Math.ceil(n / cpus)`: the divisor is
the cpu count, a positive integer, so the zero-divisor case (which would
be an infinity in JavaScript) is unreachable and mapped to NaN. -/
def jdiv : JNum → JNum → JNum
  | .num x, .num y => if y = 0 then .nan else .num (x / y)
  | _, _ => .nan

/-- `Math.ceil`: NaN for NaN. -/
def jceil : JNum → JNum
  | .num x => .num (⌈x⌉ : ℤ)
  | .nan => .nan

/-- JavaScript `>` : any comparison with NaN is false. -/
def jgt : JNum → JNum → Bool
  | .num x, .num y => decide (y < x)
  | _, _ => false

/-- ECMAScript `ToIndex`, used by the `SharedArrayBuffer` and
`Float64Array` constructors for lengths and offsets: NaN converts to 0;
nonnegative values truncate.  (A negative index throws a `RangeError` in
JavaScript; negative `n` is not exercised by any claim here.) -/
def toIndex : JNum → ℕ
  | .nan => 0
  | .num q => if q < 0 then 0 else (⌊q⌋).toNat

/-- Number of iterations of `for (let i = 0; i < n; i++)` for a `JNum`
bound: zero when the bound is NaN (the comparison is always false). -/
def jLoopCount : JNum → ℕ
  | .nan => 0
  | .num q => (⌈q⌉).toNat

/-- The index list visited by `for (let i = start; i < end; i++)` with
`JNum` bounds.  The bounds reaching this loop in the program are NaN or
nonnegative integers (`k * chunk` and its clip to `n`); NaN bounds give
an empty loop, and other unreachable shapes are also mapped to the empty
list. -/
def jnatRange (sJ eJ : JNum) : List ℕ :=
  match sJ, eJ with
  | .num x, .num y =>
    if 0 ≤ x ∧ x.den = 1 then
      (List.range ((⌈y⌉ - x.num).toNat)).map (fun t => x.num.toNat + t)
    else []
  | _, _ => []

/-- Decimal-digit string to number; `none` for anything else.  This is
the fragment of ECMAScript `ToNumber` needed for the argument strings
this program is invoked with: a plain decimal size such as `"5500"`, or
a non-numeric string. -/
def parseDec (s : String) : Option ℕ :=
  if s.length ≠ 0 ∧ s.data.all Char.isDigit then
    some (s.data.foldl (fun acc c => acc * 10 + (c.toNat - 48)) 0)
  else none

/-- The coercion `+process.argv[2]` (`src/index.ts` line 53): a missing
argument is `undefined`, which converts to NaN; a non-numeric string
converts to NaN; a decimal string converts to its value. -/
def toNumber (arg : Option String) : JNum :=
  match arg with
  | none => .nan
  | some s =>
    match parseDec s with
    | some k => .num k
    | none => .nan

/-- Observables of one full run of `mainThread`: how many workers
`startWorkers` spawned, the line printed, and the process exit status. -/
structure MainObs where
  workersSpawned : ℕ
  printed : JSOut
  exitCode : ℕ
deriving DecidableEq, Repr

/-- One `Au` work unit under `JNum` row bounds: every worker runs its
`au` loop over `jnatRange start end`, with inner loop bound
`jLoopCount n`. -/
def runAuJ (n : JNum) (ranges : List (JNum × JNum)) (src dst : ℕ → ℚ) :
    ℕ → ℚ :=
  ranges.foldl
    (fun d r => writeRows (fun i => innerAu (jLoopCount n) i src)
      (jnatRange r.1 r.2) d) dst

/-- One `Atu` work unit under `JNum` row bounds. -/
def runAtuJ (n : JNum) (ranges : List (JNum × JNum)) (src dst : ℕ → ℚ) :
    ℕ → ℚ :=
  ranges.foldl
    (fun d r => writeRows (fun i => innerAtu (jLoopCount n) i src)
      (jnatRange r.1 r.2) d) dst

/-- `atAu` under `JNum` row bounds. -/
def atAuJ (n : JNum) (ranges : List (JNum × JNum)) (x y wf : UVWField)
    (s : UVW) : UVW :=
  let s1 := s.set wf (runAuJ n ranges (s.get x) (s.get wf))
  s1.set y (runAtuJ n ranges (s1.get wf) (s1.get y))

/-- Transliteration of `mainThread(n)` (`src/index.ts` lines 58-125) with
the argument kept as the JavaScript number it is, tracking the claim's
observables.  No statement in `mainThread` validates `n`:

* `new SharedArrayBuffer(3 * 8 * n)` and the `Float64Array` views accept
  NaN sizes (`ToIndex(NaN) = 0`) — no throw;
* `startWorkers` spawns one worker per cpu unconditionally (lines
  93-103), so `workersSpawned = P` whatever `n` is;
* every worker posts its completion message even over an empty row range
  and receives its `Sab` message at spawn, before any compute unit, so no
  worker ever throws and all 20 barriers complete;
* the final loop and print always execute, and the process then ends
  normally — exit status 0. -/
def mainThreadJS (nArg : JNum) (P : ℕ) : MainObs :=
  let c := jceil (jdiv nArg (.num (P : ℚ)))
  let ranges := (List.range P).map (fun k =>
    let s := jmul (.num (k : ℚ)) c
    let e := jadd s c
    (s, if jgt e nArg then nArg else e))
  let init : UVW :=
    ⟨fun i => if i < toIndex nArg then 1 else 0, fun _ => 0, fun _ => 0⟩
  let fin := (List.range 10).foldl
    (fun s _ => atAuJ nArg ranges .v .u .w (atAuJ nArg ranges .u .v .w s))
    init
  let red := (List.range (jLoopCount nArg)).foldl
    (fun p i => (p.1 + fin.u i * fin.v i, p.2 + fin.v i * fin.v i))
    ((0 : ℚ), (0 : ℚ))
  ⟨P, finalPrint red.1 red.2, 0⟩

/-!
### Dispatch/barrier protocol

A small-step model of the coordinator's `work` function (`src/index.ts`
lines 106-120) together with the workers' message loops.  The
coordinator broadcasts one work unit to every worker (`workers.forEach(
worker => worker.postMessage(message); ...)`), counts one completion
signal per worker (`worker.once('message', ...)` decrementing `wait`),
and resolves — allowing the next `await work(...)` to dispatch — only
when the count reaches the number of workers.  Workers process their
message queues in FIFO order, one unit at a time.  Work units are
numbered `0, 1, 2, …` in dispatch order.
-/

/-- Global protocol state: `dispatched` units broadcast so far,
`waiting` whether the coordinator is inside `work` awaiting completions,
`acks` completion signals received for the current unit, and per worker
its pending FIFO `queue`, the unit it is `busy` computing (if any), and
the number of units it has `done`. -/
structure BState (P : ℕ) where
  dispatched : ℕ
  waiting : Bool
  acks : ℕ
  queue : Fin P → List ℕ
  busy : Fin P → Option ℕ
  done : Fin P → ℕ

/-- The initial protocol state: nothing dispatched, nobody busy. -/
def BState.init (P : ℕ) : BState P :=
  ⟨0, false, 0, fun _ => [], fun _ => none, fun _ => 0⟩

/-- One step of the system.  `dispatch` is the coordinator entering
`work`: it broadcasts the next unit to every worker and starts waiting
(guard: it is not already inside `work` — the `await` sequencing).
`tstart` is a worker dequeuing its next message and beginning to compute
it; `tfinish` is a worker completing its unit and its completion signal
reaching the coordinator; `complete` is the coordinator's promise
resolving once every worker has signalled. -/
inductive BStep (P : ℕ) : BState P → BState P → Prop
  | dispatch (s : BState P) (h : s.waiting = false) :
      BStep P s ⟨s.dispatched + 1, true, 0,
        fun q => s.queue q ++ [s.dispatched], s.busy, s.done⟩
  | tstart (s : BState P) (t : Fin P) (u : ℕ) (rest : List ℕ)
      (hq : s.queue t = u :: rest) (hb : s.busy t = none) :
      BStep P s ⟨s.dispatched, s.waiting, s.acks,
        Function.update s.queue t rest,
        Function.update s.busy t (some u), s.done⟩
  | tfinish (s : BState P) (t : Fin P) (u : ℕ) (hb : s.busy t = some u) :
      BStep P s ⟨s.dispatched, s.waiting, s.acks + 1, s.queue,
        Function.update s.busy t none,
        Function.update s.done t (u + 1)⟩
  | complete (s : BState P) (hw : s.waiting = true) (ha : s.acks = P) :
      BStep P s ⟨s.dispatched, false, 0, s.queue, s.busy, s.done⟩

/-- States reachable from the initial state. -/
def BReachable (P : ℕ) (s : BState P) : Prop :=
  Relation.ReflTransGen (BStep P) (BState.init P) s

/-- Worker `t` has begun (is computing, or has already finished)
work unit `u`. -/
def began {P : ℕ} (s : BState P) (t : Fin P) (u : ℕ) : Prop :=
  s.busy t = some u ∨ u < s.done t

/-- Inductive invariant of the dispatch/barrier protocol.  Each worker's
pending queue is exactly the contiguous block of already-dispatched unit
numbers it has not yet begun; a busy worker is computing precisely its
next unit; no worker is ever more than one unit behind the dispatch
counter; when the coordinator is not inside `work` every worker has
finished everything dispatched; and while it waits, its completion count
equals the number of workers that have finished the current unit. -/
def BInv {P : ℕ} (s : BState P) : Prop :=
  (∀ t, s.busy t = none →
      s.queue t = List.range' (s.done t) (s.dispatched - s.done t)) ∧
  (∀ t u, s.busy t = some u → u = s.done t ∧ s.done t + 1 ≤ s.dispatched ∧
      s.queue t = List.range' (s.done t + 1) (s.dispatched - (s.done t + 1))) ∧
  (∀ t, s.done t ≤ s.dispatched ∧ s.dispatched ≤ s.done t + 1) ∧
  (s.waiting = false → ∀ t, s.done t = s.dispatched ∧ s.busy t = none) ∧
  (s.waiting = true →
      s.acks = (Finset.univ.filter (fun t => s.done t = s.dispatched)).card)

/-- A vector is entrywise positive on the first `n` indices. -/
def PosOn (n : ℕ) (x : ℕ → ℚ) : Prop := ∀ i, i < n → 0 < x i

/-- All three shared vectors are entrywise positive on `[0, n)`. -/
def AllPos (n : ℕ) (s : UVW) : Prop :=
  PosOn n s.u ∧ PosOn n s.v ∧ PosOn n s.w

/-- One iteration of the coordinator's loop body (`src/index.ts` lines
67-68): `await atAu('u','v','w'); await atAu('v','u','w')`. -/
def loopIter (n P : ℕ) (s : UVW) : UVW :=
  atAu n P .v .u .w (atAu n P .u .v .w s)

/-!
Concrete protocol run used to exercise the barrier-safety theorem:
one worker, two work units, each dispatched, begun, finished and
barrier-completed in order.
-/

/-- Demo run, state 0: the initial state with one worker. -/
def demo0 : BState 1 := BState.init 1

/-- Demo run, state 1: unit 0 dispatched. -/
def demo1 : BState 1 :=
  ⟨demo0.dispatched + 1, true, 0,
    fun q => demo0.queue q ++ [demo0.dispatched], demo0.busy, demo0.done⟩

/-- Demo run, state 2: the worker has begun unit 0. -/
def demo2 : BState 1 :=
  ⟨demo1.dispatched, demo1.waiting, demo1.acks,
    Function.update demo1.queue 0 [],
    Function.update demo1.busy 0 (some 0), demo1.done⟩

/-- Demo run, state 3: the worker has finished unit 0 and signalled. -/
def demo3 : BState 1 :=
  ⟨demo2.dispatched, demo2.waiting, demo2.acks + 1, demo2.queue,
    Function.update demo2.busy 0 none, Function.update demo2.done 0 1⟩

/-- Demo run, state 4: the barrier for unit 0 has completed. -/
def demo4 : BState 1 :=
  ⟨demo3.dispatched, false, 0, demo3.queue, demo3.busy, demo3.done⟩

/-- Demo run, state 5: unit 1 dispatched. -/
def demo5 : BState 1 :=
  ⟨demo4.dispatched + 1, true, 0,
    fun q => demo4.queue q ++ [demo4.dispatched], demo4.busy, demo4.done⟩

/-- Demo run, state 6: the worker has begun unit 1. -/
def demo6 : BState 1 :=
  ⟨demo5.dispatched, demo5.waiting, demo5.acks,
    Function.update demo5.queue 0 [],
    Function.update demo5.busy 0 (some 1), demo5.done⟩

/-! ## Helper lemmas -/

theorem foldl_add_map (f : ℕ → ℚ) :
    ∀ (l : List ℕ) (c : ℚ),
      l.foldl (fun t j => t + f j) c = c + (l.map f).sum := by
  intro l
  induction l with
  | nil => intro c; simp
  | cons x xs ih => intro c; simp [ih, add_assoc]

theorem range_map_sum (f : ℕ → ℚ) (n : ℕ) :
    ((List.range n).map f).sum = ∑ j in Finset.range n, f j := by
  induction n with
  | zero => simp
  | succ m ih => simp [List.range_succ, Finset.sum_range_succ, ih]

theorem innerAu_eq (n i : ℕ) (src : ℕ → ℚ) :
    innerAu n i src = ∑ j in Finset.range n, src j / aQ i j := by
  rw [innerAu, foldl_add_map, range_map_sum, zero_add]

theorem innerAtu_eq (n i : ℕ) (src : ℕ → ℚ) :
    innerAtu n i src = ∑ j in Finset.range n, src j / aQ j i := by
  rw [innerAtu, foldl_add_map, range_map_sum, zero_add]

theorem writeRows_apply (g : ℕ → ℚ) (idxs : List ℕ) (dst : ℕ → ℚ)
    (i : ℕ) :
    writeRows g idxs dst i = if i ∈ idxs then g i else dst i := by
  induction idxs generalizing dst with
  | nil => simp [writeRows]
  | cons x xs ih =>
    show writeRows g xs (Function.update dst x (g x)) i = _
    rw [ih]
    by_cases hx : i ∈ xs
    · simp [hx]
    · by_cases hix : i = x
      · subst hix; simp [hx]
      · simp [hx, hix, Function.update_apply]

theorem au_apply (n s e : ℕ) (src dst : ℕ → ℚ) (i : ℕ) :
    au n s e src dst i =
      if s ≤ i ∧ i < e then ∑ j in Finset.range n, src j / aQ i j
      else dst i := by
  rw [au, writeRows_apply]
  by_cases h : s ≤ i ∧ i < e
  · have hm : i ∈ List.range' s (e - s) := by
      rw [List.mem_range'_1]; omega
    simp [hm, h, innerAu_eq]
  · have hm : i ∉ List.range' s (e - s) := by
      rw [List.mem_range'_1]; omega
    simp [hm, h]

theorem atu_apply (n s e : ℕ) (src dst : ℕ → ℚ) (i : ℕ) :
    atu n s e src dst i =
      if s ≤ i ∧ i < e then ∑ j in Finset.range n, src j / aQ j i
      else dst i := by
  rw [atu, writeRows_apply]
  by_cases h : s ≤ i ∧ i < e
  · have hm : i ∈ List.range' s (e - s) := by
      rw [List.mem_range'_1]; omega
    simp [hm, h, innerAtu_eq]
  · have hm : i ∉ List.range' s (e - s) := by
      rw [List.mem_range'_1]; omega
    simp [hm, h]

theorem chunk_pos {n P : ℕ} (hn : 0 < n) (hP : 0 < P) :
    0 < chunk n P := by
  rw [chunk]
  have : 1 ≤ (n + P - 1) / P := (Nat.one_le_div_iff hP).mpr (by omega)
  omega

theorem le_P_mul_chunk {n P : ℕ} (hP : 0 < P) : n ≤ P * chunk n P := by
  rw [chunk]
  have h1 := Nat.div_add_mod (n + P - 1) P
  have h2 := Nat.mod_lt (n + P - 1) hP
  omega

theorem cover {n P i : ℕ} (hn : 0 < n) (hP : 0 < P) (hi : i < n) :
    i / chunk n P < P ∧ wStart n P (i / chunk n P) ≤ i ∧
      i < wEnd n P (i / chunk n P) := by
  have hc : 0 < chunk n P := chunk_pos hn hP
  refine ⟨?_, ?_, ?_⟩
  · rw [Nat.div_lt_iff_lt_mul hc]
    exact lt_of_lt_of_le hi (le_P_mul_chunk hP)
  · exact Nat.div_mul_le_self i (chunk n P)
  · rw [wEnd, lt_min_iff]
    exact ⟨Nat.lt_div_mul_add hc, hi⟩

theorem wEnd_le_wStart {n P : ℕ} (k l : ℕ) (h : k < l) :
    wEnd n P k ≤ wStart n P l := by
  calc wEnd n P k ≤ wStart n P k + chunk n P := min_le_left _ _
    _ = (k + 1) * chunk n P := by rw [wStart]; ring
    _ ≤ l * chunk n P := Nat.mul_le_mul_right _ h
    _ = wStart n P l := rfl

theorem foldAu_apply (n P : ℕ) (src : ℕ → ℚ) (K : List ℕ)
    (dst : ℕ → ℚ) (i : ℕ) :
    (K.foldl (fun d k => au n (wStart n P k) (wEnd n P k) src d) dst) i =
      if ∃ k ∈ K, wStart n P k ≤ i ∧ i < wEnd n P k
      then ∑ j in Finset.range n, src j / aQ i j else dst i := by
  induction K generalizing dst with
  | nil => simp
  | cons x xs ih =>
    rw [List.foldl_cons, ih]
    by_cases hxs : ∃ k ∈ xs, wStart n P k ≤ i ∧ i < wEnd n P k
    · have hcons : ∃ k ∈ x :: xs, wStart n P k ≤ i ∧ i < wEnd n P k := by
        obtain ⟨k, hk, hki⟩ := hxs
        exact ⟨k, List.mem_cons_of_mem _ hk, hki⟩
      simp [hxs, hcons]
    · rw [if_neg hxs, au_apply]
      by_cases hx : wStart n P x ≤ i ∧ i < wEnd n P x
      · have hcons : ∃ k ∈ x :: xs, wStart n P k ≤ i ∧ i < wEnd n P k :=
          ⟨x, List.mem_cons_self _ _, hx⟩
        simp [hx, hcons]
      · have hcons : ¬ ∃ k ∈ x :: xs, wStart n P k ≤ i ∧ i < wEnd n P k := by
          rintro ⟨k, hk, hki⟩
          rcases List.mem_cons.mp hk with h | h
          · exact hx (h ▸ hki)
          · exact hxs ⟨k, h, hki⟩
        simp [hx, hcons, hxs]

theorem foldAtu_apply (n P : ℕ) (src : ℕ → ℚ) (K : List ℕ)
    (dst : ℕ → ℚ) (i : ℕ) :
    (K.foldl (fun d k => atu n (wStart n P k) (wEnd n P k) src d) dst) i =
      if ∃ k ∈ K, wStart n P k ≤ i ∧ i < wEnd n P k
      then ∑ j in Finset.range n, src j / aQ j i else dst i := by
  induction K generalizing dst with
  | nil => simp
  | cons x xs ih =>
    rw [List.foldl_cons, ih]
    by_cases hxs : ∃ k ∈ xs, wStart n P k ≤ i ∧ i < wEnd n P k
    · have hcons : ∃ k ∈ x :: xs, wStart n P k ≤ i ∧ i < wEnd n P k := by
        obtain ⟨k, hk, hki⟩ := hxs
        exact ⟨k, List.mem_cons_of_mem _ hk, hki⟩
      simp [hxs, hcons]
    · rw [if_neg hxs, atu_apply]
      by_cases hx : wStart n P x ≤ i ∧ i < wEnd n P x
      · have hcons : ∃ k ∈ x :: xs, wStart n P k ≤ i ∧ i < wEnd n P k :=
          ⟨x, List.mem_cons_self _ _, hx⟩
        simp [hx, hcons]
      · have hcons : ¬ ∃ k ∈ x :: xs, wStart n P k ≤ i ∧ i < wEnd n P k := by
          rintro ⟨k, hk, hki⟩
          rcases List.mem_cons.mp hk with h | h
          · exact hx (h ▸ hki)
          · exact hxs ⟨k, h, hki⟩
        simp [hx, hcons, hxs]

theorem exists_worker_covering {n P i : ℕ} (hn : 0 < n) (hP : 0 < P)
    (hi : i < n) :
    ∃ k ∈ List.range P, wStart n P k ≤ i ∧ i < wEnd n P k := by
  obtain ⟨h1, h2, h3⟩ := cover hn hP hi
  exact ⟨i / chunk n P, List.mem_range.mpr h1, h2, h3⟩

theorem not_covered_ge {n P i : ℕ} (hi : n ≤ i) :
    ¬ ∃ k ∈ List.range P, wStart n P k ≤ i ∧ i < wEnd n P k := by
  rintro ⟨k, _, _, hlt⟩
  have : wEnd n P k ≤ n := min_le_right _ _
  omega

theorem runAu_apply_lt {n P i : ℕ} (hn : 0 < n) (hP : 0 < P)
    (hi : i < n) (src dst : ℕ → ℚ) :
    runAu n P src dst i = ∑ j in Finset.range n, src j / aQ i j := by
  rw [runAu, foldAu_apply, if_pos (exists_worker_covering hn hP hi)]

theorem runAu_apply_ge {n P i : ℕ} (hi : n ≤ i) (src dst : ℕ → ℚ) :
    runAu n P src dst i = dst i := by
  rw [runAu, foldAu_apply, if_neg (not_covered_ge hi)]

theorem runAtu_apply_lt {n P i : ℕ} (hn : 0 < n) (hP : 0 < P)
    (hi : i < n) (src dst : ℕ → ℚ) :
    runAtu n P src dst i = ∑ j in Finset.range n, src j / aQ j i := by
  rw [runAtu, foldAtu_apply, if_pos (exists_worker_covering hn hP hi)]

theorem runAtu_apply_ge {n P i : ℕ} (hi : n ≤ i) (src dst : ℕ → ℚ) :
    runAtu n P src dst i = dst i := by
  rw [runAtu, foldAtu_apply, if_neg (not_covered_ge hi)]

theorem a_pos (i j : ℕ) : 0 < a i j := by
  rw [a]; omega

theorem aQ_pos (i j : ℕ) : 0 < aQ i j := by
  rw [aQ]
  exact_mod_cast a_pos i j

theorem aQ_ne_zero (i j : ℕ) : aQ i j ≠ 0 := ne_of_gt (aQ_pos i j)

theorem innerAu_pos {n : ℕ} (hn : 0 < n) {src : ℕ → ℚ}
    (hs : PosOn n src) (i : ℕ) : 0 < innerAu n i src := by
  rw [innerAu_eq]
  refine Finset.sum_pos (fun j hj => ?_) ?_
  · exact div_pos (hs j (Finset.mem_range.mp hj)) (aQ_pos i j)
  · exact Finset.nonempty_range_iff.mpr (Nat.pos_iff_ne_zero.mp hn)

theorem innerAtu_pos {n : ℕ} (hn : 0 < n) {src : ℕ → ℚ}
    (hs : PosOn n src) (i : ℕ) : 0 < innerAtu n i src := by
  rw [innerAtu_eq]
  refine Finset.sum_pos (fun j hj => ?_) ?_
  · exact div_pos (hs j (Finset.mem_range.mp hj)) (aQ_pos j i)
  · exact Finset.nonempty_range_iff.mpr (Nat.pos_iff_ne_zero.mp hn)

theorem runAu_posOn {n P : ℕ} (hn : 0 < n) (hP : 0 < P) {src : ℕ → ℚ}
    (hs : PosOn n src) (dst : ℕ → ℚ) : PosOn n (runAu n P src dst) := by
  intro i hi
  rw [runAu_apply_lt hn hP hi]
  rw [← innerAu_eq]
  exact innerAu_pos hn hs i

theorem runAtu_posOn {n P : ℕ} (hn : 0 < n) (hP : 0 < P) {src : ℕ → ℚ}
    (hs : PosOn n src) (dst : ℕ → ℚ) : PosOn n (runAtu n P src dst) := by
  intro i hi
  rw [runAtu_apply_lt hn hP hi]
  rw [← innerAtu_eq]
  exact innerAtu_pos hn hs i

theorem loopIter_allPos {n P : ℕ} (hn : 0 < n) (hP : 0 < P) {s : UVW}
    (hu : PosOn n s.u) : AllPos n (loopIter n P s) := by
  have hw1 : PosOn n (runAu n P s.u s.w) := runAu_posOn hn hP hu s.w
  have hv1 : PosOn n (runAtu n P (runAu n P s.u s.w) s.v) :=
    runAtu_posOn hn hP hw1 s.v
  have hw2 : PosOn n (runAu n P (runAtu n P (runAu n P s.u s.w) s.v)
      (runAu n P s.u s.w)) := runAu_posOn hn hP hv1 _
  have hu2 : PosOn n (runAtu n P (runAu n P (runAtu n P (runAu n P s.u s.w)
      s.v) (runAu n P s.u s.w)) s.u) := runAtu_posOn hn hP hw2 s.u
  exact ⟨hu2, hv1, hw2⟩

theorem loopIter_preserves {n P : ℕ} (hn : 0 < n) (hP : 0 < P) {s : UVW}
    (h : AllPos n s) : AllPos n (loopIter n P s) :=
  loopIter_allPos hn hP h.1

theorem foldl_const_iterate {α : Type} (f : α → α) :
    ∀ (m : ℕ) (x : α),
      (List.range m).foldl (fun s _ => f s) x = f^[m] x := by
  intro m
  induction m with
  | zero => intro x; simp
  | succ k ih =>
    intro x
    rw [List.range_succ, List.foldl_append, ih, List.foldl_cons,
      List.foldl_nil, Function.iterate_succ_apply']

theorem iterate_allPos {n P : ℕ} (hn : 0 < n) (hP : 0 < P) :
    ∀ (m : ℕ) (s : UVW), AllPos n s →
      AllPos n ((loopIter n P)^[m] s) := by
  intro m
  induction m with
  | zero => intro s h; simpa using h
  | succ k ih =>
    intro s h
    rw [Function.iterate_succ_apply]
    exact ih _ (loopIter_preserves hn hP h)

theorem powerLoop_eq_iterate (n P : ℕ) :
    powerLoop n P = (loopIter n P)^[10] (initUVW n) :=
  foldl_const_iterate (loopIter n P) 10 (initUVW n)

theorem initUVW_u_posOn (n : ℕ) : PosOn n (initUVW n).u := by
  intro i hi
  simp [initUVW, hi]

theorem powerLoop_allPos {n P : ℕ} (hn : 0 < n) (hP : 0 < P) :
    AllPos n (powerLoop n P) := by
  rw [powerLoop_eq_iterate]
  show AllPos n ((loopIter n P)^[9 + 1] (initUVW n))
  rw [Function.iterate_add_apply]
  exact iterate_allPos hn hP 9 _
    (loopIter_allPos hn hP (initUVW_u_posOn n))

theorem foldl_pair (f g : ℕ → ℚ) :
    ∀ (l : List ℕ) (c : ℚ × ℚ),
      l.foldl (fun p i => (p.1 + f i, p.2 + g i)) c =
        (c.1 + (l.map f).sum, c.2 + (l.map g).sum) := by
  intro l
  induction l with
  | nil => intro c; simp
  | cons x xs ih => intro c; simp [ih, add_assoc]

theorem reduction_eq (n : ℕ) (s : UVW) :
    reduction n s = (∑ i in Finset.range n, s.u i * s.v i,
      ∑ i in Finset.range n, s.v i * s.v i) := by
  rw [reduction, foldl_pair]
  simp [range_map_sum]

theorem BInv_init (P : ℕ) : BInv (BState.init P) := by
  refine ⟨?_, ?_, ?_, ?_, ?_⟩
  · intro t _; simp [BState.init]
  · intro t u h; simp [BState.init] at h
  · intro t; simp [BState.init]
  · intro _ t; simp [BState.init]
  · intro h; simp [BState.init] at h

theorem BInv_step {P : ℕ} {s s' : BState P} (hs : BStep P s s')
    (hI : BInv s) : BInv s' := by
  obtain ⟨hA, hB, hC, hD, hE⟩ := hI
  cases hs with
  | dispatch h =>
    have hall := hD h
    refine ⟨?_, ?_, ?_, ?_, ?_⟩
    · intro t _
      show s.queue t ++ [s.dispatched] =
        List.range' (s.done t) (s.dispatched + 1 - s.done t)
      have h1 := (hall t).1
      have h2 := hA t (hall t).2
      rw [h1] at h2 ⊢
      rw [h2]
      simp [List.range'_succ]
    · intro t u hb
      rw [show (⟨s.dispatched + 1, true, 0,
          fun q => s.queue q ++ [s.dispatched], s.busy, s.done⟩ :
            BState P).busy = s.busy from rfl, (hall t).2] at hb
      cases hb
    · intro t
      have h1 := (hall t).1
      show s.done t ≤ s.dispatched + 1 ∧ s.dispatched + 1 ≤ s.done t + 1
      omega
    · intro hf
      cases hf
    · intro _
      show (0 : ℕ) =
        (Finset.univ.filter (fun t => s.done t = s.dispatched + 1)).card
      have hempty :
          (Finset.univ.filter (fun t => s.done t = s.dispatched + 1)) = ∅ := by
        apply Finset.filter_false_of_mem
        intro t _
        have := (hall t).1
        omega
      rw [hempty]
      simp
  | tstart t u rest hq hb =>
    have hqt := hA t hb
    rw [hq] at hqt
    have hcnt : s.dispatched - s.done t ≠ 0 := by
      intro h0
      rw [h0] at hqt
      simp at hqt
    obtain ⟨m, hm⟩ : ∃ m, s.dispatched - s.done t = m + 1 :=
      ⟨s.dispatched - s.done t - 1, by omega⟩
    rw [hm, List.range'_succ] at hqt
    have hu : u = s.done t := (List.cons.injEq _ _ _ _ ▸ hqt).1
    have hrest : rest = List.range' (s.done t + 1) m :=
      (List.cons.injEq _ _ _ _ ▸ hqt).2
    refine ⟨?_, ?_, ?_, ?_, ?_⟩
    · intro t' hb'
      by_cases ht' : t' = t
      · subst ht'
        rw [show (⟨s.dispatched, s.waiting, s.acks,
            Function.update s.queue t' rest,
            Function.update s.busy t' (some u), s.done⟩ :
              BState P).busy t' = some u from Function.update_same _ _ _]
          at hb'
        cases hb'
      · show Function.update s.queue t rest t' = _
        rw [Function.update_noteq ht']
        rw [show (⟨s.dispatched, s.waiting, s.acks,
            Function.update s.queue t rest,
            Function.update s.busy t (some u), s.done⟩ :
              BState P).busy t' = s.busy t' from Function.update_noteq ht' _ _]
          at hb'
        exact hA t' hb'
    · intro t' u' hb'
      by_cases ht' : t' = t
      · subst ht'
        rw [show (⟨s.dispatched, s.waiting, s.acks,
            Function.update s.queue t' rest,
            Function.update s.busy t' (some u), s.done⟩ :
              BState P).busy t' = some u from Function.update_same _ _ _]
          at hb'
        have huu : u' = u := by
          injection hb' with h
          exact h.symm
        subst huu
        refine ⟨hu, ?_, ?_⟩
        · show s.done t' + 1 ≤ s.dispatched
          omega
        · show Function.update s.queue t' rest t' =
            List.range' (s.done t' + 1) (s.dispatched - (s.done t' + 1))
          rw [Function.update_same, hrest]
          congr 1
          omega
      · rw [show (⟨s.dispatched, s.waiting, s.acks,
            Function.update s.queue t rest,
            Function.update s.busy t (some u), s.done⟩ :
              BState P).busy t' = s.busy t' from Function.update_noteq ht' _ _]
          at hb'
        have hB' := hB t' u' hb'
        refine ⟨hB'.1, hB'.2.1, ?_⟩
        show Function.update s.queue t rest t' = _
        rw [Function.update_noteq ht']
        exact hB'.2.2
    · exact hC
    · intro hf
      exact absurd ((hD hf t).1) (by omega)
    · exact hE
  | tfinish t u hb =>
    obtain ⟨hu, hle, hqt⟩ := hB t u hb
    have hdisp : s.dispatched = s.done t + 1 :=
      le_antisymm (hC t).2 hle
    have hqe : s.queue t = [] := by
      rw [hqt]
      have hz : s.dispatched - (s.done t + 1) = 0 := by omega
      rw [hz]
      rfl
    have hwait : s.waiting = true := by
      cases hw : s.waiting with
      | false =>
        have hn := (hD hw t).2
        rw [hn] at hb
        cases hb
      | true => rfl
    refine ⟨?_, ?_, ?_, ?_, ?_⟩
    · intro t' hb'
      by_cases ht' : t' = t
      · subst ht'
        show s.queue t' =
          List.range' (Function.update s.done t' (u + 1) t')
            (s.dispatched - Function.update s.done t' (u + 1) t')
        rw [Function.update_same, hqe]
        have hz : s.dispatched - (u + 1) = 0 := by omega
        rw [hz]
        rfl
      · show s.queue t' =
          List.range' (Function.update s.done t (u + 1) t')
            (s.dispatched - Function.update s.done t (u + 1) t')
        rw [show Function.update s.done t (u + 1) t' = s.done t' from
          Function.update_noteq ht' _ _]
        rw [show (⟨s.dispatched, s.waiting, s.acks + 1, s.queue,
            Function.update s.busy t none,
            Function.update s.done t (u + 1)⟩ :
              BState P).busy t' = s.busy t' from Function.update_noteq ht' _ _]
          at hb'
        exact hA t' hb'
    · intro t' u' hb'
      by_cases ht' : t' = t
      · subst ht'
        rw [show (⟨s.dispatched, s.waiting, s.acks + 1, s.queue,
            Function.update s.busy t' none,
            Function.update s.done t' (u + 1)⟩ :
              BState P).busy t' = none from Function.update_same _ _ _]
          at hb'
        cases hb'
      · rw [show (⟨s.dispatched, s.waiting, s.acks + 1, s.queue,
            Function.update s.busy t none,
            Function.update s.done t (u + 1)⟩ :
              BState P).busy t' = s.busy t' from Function.update_noteq ht' _ _]
          at hb'
        obtain ⟨e1, e2, e3⟩ := hB t' u' hb'
        refine ⟨?_, ?_, ?_⟩
        · show u' = Function.update s.done t (u + 1) t'
          rw [Function.update_noteq ht']
          exact e1
        · show Function.update s.done t (u + 1) t' + 1 ≤ s.dispatched
          rw [Function.update_noteq ht']
          exact e2
        · show s.queue t' =
            List.range' (Function.update s.done t (u + 1) t' + 1)
              (s.dispatched - (Function.update s.done t (u + 1) t' + 1))
          rw [Function.update_noteq ht']
          exact e3
    · intro t'
      by_cases ht' : t' = t
      · subst ht'
        show Function.update s.done t' (u + 1) t' ≤ s.dispatched ∧
          s.dispatched ≤ Function.update s.done t' (u + 1) t' + 1
        rw [Function.update_same]
        omega
      · show Function.update s.done t (u + 1) t' ≤ s.dispatched ∧
          s.dispatched ≤ Function.update s.done t (u + 1) t' + 1
        rw [Function.update_noteq ht']
        exact hC t'
    · intro hf
      rw [hwait] at hf
      cases hf
    · intro _
      have hacks := hE hwait
      have hset : (Finset.univ.filter
            (fun t' => Function.update s.done t (u + 1) t' = s.dispatched)) =
          insert t (Finset.univ.filter
            (fun t' => s.done t' = s.dispatched)) := by
        ext t'
        simp only [Finset.mem_filter, Finset.mem_insert, Finset.mem_univ,
          true_and]
        by_cases ht' : t' = t
        · subst ht'
          rw [Function.update_same]
          constructor
          · intro _; exact Or.inl rfl
          · intro _; omega
        · rw [Function.update_noteq ht']
          constructor
          · intro hh; exact Or.inr hh
          · intro hh
            rcases hh with hh | hh
            · exact absurd hh ht'
            · exact hh
      have hnot : t ∉ Finset.univ.filter
          (fun t' => s.done t' = s.dispatched) := by
        simp only [Finset.mem_filter, Finset.mem_univ, true_and]
        omega
      show s.acks + 1 = (Finset.univ.filter
        (fun t' => Function.update s.done t (u + 1) t' = s.dispatched)).card
      rw [hset, Finset.card_insert_of_not_mem hnot, hacks]
  | complete hw ha =>
    have hacks := hE hw
    have hall : ∀ t, s.done t = s.dispatched := by
      have hcard :
          (Finset.univ.filter (fun t => s.done t = s.dispatched)).card = P := by
        rw [← hacks, ha]
      have huniv :
          (Finset.univ.filter (fun t => s.done t = s.dispatched)) =
            Finset.univ := by
        apply Finset.eq_univ_of_card
        rw [hcard, Fintype.card_fin]
      intro t
      have ht : t ∈ Finset.univ.filter (fun t => s.done t = s.dispatched) := by
        rw [huniv]
        exact Finset.mem_univ t
      exact (Finset.mem_filter.mp ht).2
    have hbusy : ∀ t, s.busy t = none := by
      intro t
      cases hb : s.busy t with
      | none => rfl
      | some u =>
        have h1 := (hB t u hb).2.1
        have h2 := hall t
        omega
    exact ⟨hA, hB, hC, fun _ t => ⟨hall t, hbusy t⟩, fun hf => by cases hf⟩

theorem BInv_reachable {P : ℕ} {s : BState P} (h : BReachable P s) :
    BInv s := by
  induction h with
  | refl => exact BInv_init P
  | tail _ hstep ih => exact BInv_step hstep ih

/-! ## Claim theorems -/

theorem tri32_exact {s : ℕ} (h : s ≤ 65535) : tri32 s = triangular s := by
  rw [tri32, triangular]
  congr 1
  apply Nat.mod_eq_of_lt
  calc s * (s + 1) ≤ 65535 * 65536 := Nat.mul_le_mul h (by omega)
    _ < 2 ^ 32 := by norm_num

/-- Claim C1, counterexample: at `i = 1, j = 0` (valid indices for any
`n ≥ 2`) the source's `a` returns the denominator `3`, not the claimed
reciprocal `1.0 / (triangular(1) + 1 + 1) = 1/3`. -/
theorem claim_C1_cex : ¬ ((a 1 0 : ℚ) = aSpecClaimed 1 0) := by
  norm_num [a, tri32, aSpecClaimed, triangular]

/-- Claim C1, amended: for all `i, j < n` (with `n ≤ 32768`, below the
32-bit truncation boundary of the `>>> 1` shift), `a(i, j)` returns
`triangular(i+j) + i + 1` — the *denominator* of the matrix entry, whose
reciprocal is taken at the division sites in `au`/`atu`; as a Lean
function it is pure, total and deterministic on that domain. -/
theorem claim_C1 (n i j : ℕ) (hi : i < n) (hj : j < n)
    (hn : n ≤ 32768) : a i j = triangular (i + j) + i + 1 := by
  rw [a, tri32_exact (by omega)]

/-- Witness for the amended C1 at `n = 4, i = 1, j = 2`. -/
theorem claim_C1_witness :
    1 < 4 ∧ 2 < 4 ∧ 4 ≤ 32768 ∧ a 1 2 = triangular (1 + 2) + 1 + 1 :=
  ⟨by decide, by decide, by decide,
    claim_C1 4 1 2 (by decide) (by decide) (by decide)⟩

/-- Claim C2: for a worker with rows `[start, end)`, `au` writes
`dst[i] = Σ_{j<n} src[j] / a(i, j)` and `atu` writes
`dst[i] = Σ_{j<n} src[j] / a(j, i)` at every row `i` of the range; the
defining folds sum with `j` ascending in a single running accumulator. -/
theorem claim_C2 (n s e : ℕ) (src dst : ℕ → ℚ) (i : ℕ)
    (h1 : s ≤ i) (h2 : i < e) :
    au n s e src dst i = ∑ j in Finset.range n, src j / aQ i j ∧
    atu n s e src dst i = ∑ j in Finset.range n, src j / aQ j i :=
  ⟨by rw [au_apply, if_pos ⟨h1, h2⟩], by rw [atu_apply, if_pos ⟨h1, h2⟩]⟩

/-- Witness for C2 at `n = 2`, range `[0, 2)`, row `1`, `src = 1`. -/
theorem claim_C2_witness :
    0 ≤ 1 ∧ 1 < 2 ∧
      (au 2 0 2 (fun _ => (1 : ℚ)) (fun _ => (0 : ℚ)) 1 =
          ∑ j in Finset.range 2, (fun _ => (1 : ℚ)) j / aQ 1 j ∧
        atu 2 0 2 (fun _ => (1 : ℚ)) (fun _ => (0 : ℚ)) 1 =
          ∑ j in Finset.range 2, (fun _ => (1 : ℚ)) j / aQ j 1) :=
  ⟨by decide, by decide,
    claim_C2 2 0 2 (fun _ => (1 : ℚ)) (fun _ => (0 : ℚ)) 1
      (by decide) (by decide)⟩

/-- Claim C3: the coordinator performs exactly 10 iterations of
`atAu(u,v,w); atAu(v,u,w)` (each `atAu x y w` being a forward multiply
of `x` into `w` then a transpose multiply of `w` into `y`, each unit run
to its barrier); afterwards `vBv = Σ u[i]·v[i]` and `vv = Σ v[i]·v[i]`
over the full vector length, and the emitted line is
`sqrt(vBv / vv)` formatted with 9 digits after the decimal point
(`JSOut.sqrtFixed9` of the ratio). -/
theorem claim_C3 (n P : ℕ) (hn : 0 < n) (hP : 0 < P) :
    powerLoop n P = (loopIter n P)^[10] (initUVW n) ∧
    (reduction n (powerLoop n P)).1 =
      ∑ i in Finset.range n, (powerLoop n P).u i * (powerLoop n P).v i ∧
    (reduction n (powerLoop n P)).2 =
      ∑ i in Finset.range n, (powerLoop n P).v i * (powerLoop n P).v i ∧
    mainPrinted n P = JSOut.sqrtFixed9
      ((∑ i in Finset.range n, (powerLoop n P).u i * (powerLoop n P).v i) /
        ∑ i in Finset.range n, (powerLoop n P).v i * (powerLoop n P).v i) := by
  have hAP := powerLoop_allPos hn hP
  have hred := reduction_eq n (powerLoop n P)
  have hne : (Finset.range n).Nonempty :=
    Finset.nonempty_range_iff.mpr (Nat.pos_iff_ne_zero.mp hn)
  have hvBv : 0 < ∑ i in Finset.range n,
      (powerLoop n P).u i * (powerLoop n P).v i := by
    refine Finset.sum_pos (fun i hi => ?_) hne
    exact mul_pos (hAP.1 i (Finset.mem_range.mp hi))
      (hAP.2.1 i (Finset.mem_range.mp hi))
  have hvv : 0 < ∑ i in Finset.range n,
      (powerLoop n P).v i * (powerLoop n P).v i := by
    refine Finset.sum_pos (fun i hi => ?_) hne
    exact mul_pos (hAP.2.1 i (Finset.mem_range.mp hi))
      (hAP.2.1 i (Finset.mem_range.mp hi))
  refine ⟨powerLoop_eq_iterate n P, ?_, ?_, ?_⟩
  · rw [hred]
  · rw [hred]
  · have hfp : mainPrinted n P = finalPrint
        (∑ i in Finset.range n, (powerLoop n P).u i * (powerLoop n P).v i)
        (∑ i in Finset.range n, (powerLoop n P).v i * (powerLoop n P).v i) := by
      rw [mainPrinted, hred]
    rw [hfp, finalPrint, if_neg (ne_of_gt hvv),
      if_neg (not_lt.mpr (le_of_lt (div_pos hvBv hvv)))]

/-- Witness for C3 at `n = 1`, `P = 1`. -/
theorem claim_C3_witness :
    0 < 1 ∧ 0 < 1 ∧
      (powerLoop 1 1 = (loopIter 1 1)^[10] (initUVW 1) ∧
        (reduction 1 (powerLoop 1 1)).1 =
          ∑ i in Finset.range 1, (powerLoop 1 1).u i * (powerLoop 1 1).v i ∧
        (reduction 1 (powerLoop 1 1)).2 =
          ∑ i in Finset.range 1, (powerLoop 1 1).v i * (powerLoop 1 1).v i ∧
        mainPrinted 1 1 = JSOut.sqrtFixed9
          ((∑ i in Finset.range 1,
              (powerLoop 1 1).u i * (powerLoop 1 1).v i) /
            ∑ i in Finset.range 1,
              (powerLoop 1 1).v i * (powerLoop 1 1).v i)) :=
  ⟨by decide, by decide, claim_C3 1 1 (by decide) (by decide)⟩

/-- Claim C4: for `n > 0` and worker count `P > 0`, the startup row
ranges (`ceil(n/P)`-sized chunks, last clipped to `n`) are ascending,
pairwise disjoint, and their union is exactly `[0, n)`. -/
theorem claim_C4 (n P : ℕ) (hn : 0 < n) (hP : 0 < P) :
    (∀ k l, k < l → ∀ x ∈ rowRange n P k, ∀ y ∈ rowRange n P l, x < y) ∧
    (∀ k l, k ≠ l → Disjoint (rowRange n P k) (rowRange n P l)) ∧
    (Finset.range P).biUnion (rowRange n P) = Finset.range n := by
  have hasc : ∀ k l : ℕ, k < l →
      ∀ x ∈ rowRange n P k, ∀ y ∈ rowRange n P l, x < y := by
    intro k l hkl x hx y hy
    rw [rowRange, Finset.mem_Ico] at hx hy
    have h3 : wEnd n P k ≤ wStart n P l := wEnd_le_wStart k l hkl
    omega
  refine ⟨hasc, ?_, ?_⟩
  · intro k l hkl
    rcases Nat.lt_or_ge k l with h | h
    · rw [Finset.disjoint_left]
      intro x hxk hxl
      exact lt_irrefl x (hasc k l h x hxk x hxl)
    · have h' : l < k := by omega
      rw [disjoint_comm, Finset.disjoint_left]
      intro x hxl hxk
      exact lt_irrefl x (hasc l k h' x hxl x hxk)
  · ext x
    simp only [Finset.mem_biUnion, Finset.mem_range, rowRange,
      Finset.mem_Ico]
    constructor
    · rintro ⟨k, hk, hx1, hx2⟩
      have hle : wEnd n P k ≤ n := min_le_right _ _
      omega
    · intro hx
      obtain ⟨h1, h2, h3⟩ := cover hn hP hx
      exact ⟨x / chunk n P, h1, h2, h3⟩

/-- Witness for C4 at `n = 5`, `P = 2`. -/
theorem claim_C4_witness :
    0 < 5 ∧ 0 < 2 ∧
      ((∀ k l, k < l →
          ∀ x ∈ rowRange 5 2 k, ∀ y ∈ rowRange 5 2 l, x < y) ∧
        (∀ k l, k ≠ l → Disjoint (rowRange 5 2 k) (rowRange 5 2 l)) ∧
        (Finset.range 2).biUnion (rowRange 5 2) = Finset.range 5) :=
  ⟨by decide, by decide, claim_C4 5 2 (by decide) (by decide)⟩

/-- Claim C5: in every reachable state of the dispatch/barrier protocol,
if any worker has begun work unit `k + 1` then every worker has already
finished unit `k` — the total-barrier guarantee of `work`. -/
theorem claim_C5 (P : ℕ) (s : BState P) (t t' : Fin P) (k : ℕ)
    (hR : BReachable P s) (h : began s t (k + 1)) : k < s.done t' := by
  have hI := BInv_reachable hR
  have hdisp : k + 2 ≤ s.dispatched := by
    cases h with
    | inl hb =>
      obtain ⟨he, hle, _⟩ := hI.2.1 t (k + 1) hb
      omega
    | inr hlt =>
      have hct := (hI.2.2.1 t).1
      omega
  have h2 := (hI.2.2.1 t').2
  omega

theorem demo6_reachable : BReachable 1 demo6 := by
  have h01 : BStep 1 demo0 demo1 := BStep.dispatch demo0 rfl
  have h12 : BStep 1 demo1 demo2 := BStep.tstart demo1 0 0 [] rfl rfl
  have h23 : BStep 1 demo2 demo3 :=
    BStep.tfinish demo2 0 0 (by simp [demo2, Function.update])
  have h34 : BStep 1 demo3 demo4 := BStep.complete demo3 rfl rfl
  have h45 : BStep 1 demo4 demo5 := BStep.dispatch demo4 rfl
  have h56 : BStep 1 demo5 demo6 :=
    BStep.tstart demo5 0 1 []
      (by simp [demo5, demo4, demo3, demo2, demo1, demo0, BState.init,
        Function.update])
      (by simp [demo5, demo4, demo3, demo2, Function.update])
  exact Relation.ReflTransGen.tail
    (Relation.ReflTransGen.tail
      (Relation.ReflTransGen.tail
        (Relation.ReflTransGen.tail
          (Relation.ReflTransGen.tail
            (Relation.ReflTransGen.tail Relation.ReflTransGen.refl h01)
            h12) h23) h34) h45) h56

/-- Witness for C5: in the two-unit demo run, once the single worker has
begun unit 1 it has (as every worker must have) finished unit 0. -/
theorem claim_C5_witness : 0 < demo6.done 0 :=
  claim_C5 1 demo6 0 0 0 demo6_reachable (Or.inl rfl)

/-- Claim C6, counterexample: at `i = j = 32768` the shifted product
`(i+j)*(i+j+1) >>> 1` is truncated to 32 bits by `ToUint32` and differs
from the exact triangular number — the computation does not have 53 bits
of exact integer precision. -/
theorem claim_C6_cex :
    tri32 (32768 + 32768) ≠ triangular (32768 + 32768) := by decide

/-- Claim C6, amended: the triangular number inside `a(i, j)` is
computed through a 32-bit unsigned shift and is exact precisely on the
range where the product fits in 32 bits, i.e. for `i + j ≤ 65535`
(problem sizes `n ≤ 32768`); there, `a(i, j)` equals the exact
`triangular(i+j) + i + 1`. -/
theorem claim_C6 (i j : ℕ) (h : i + j ≤ 65535) :
    tri32 (i + j) = triangular (i + j) ∧
    a i j = triangular (i + j) + i + 1 :=
  ⟨tri32_exact h, by rw [a, tri32_exact h]⟩

/-- Witness for the amended C6 at the boundary `i = 65535, j = 0`. -/
theorem claim_C6_witness :
    65535 + 0 ≤ 65535 ∧
      (tri32 (65535 + 0) = triangular (65535 + 0) ∧
        a 65535 0 = triangular (65535 + 0) + 65535 + 1) :=
  ⟨by decide, claim_C6 65535 0 (by decide)⟩

/-- Claim C7, counterexample: `a(0,1) = 2` but `a(1,0) = 3`; the matrix
defined by the code is not symmetric. -/
theorem claim_C7_cex : ¬ (a 0 1 = a 1 0) := by decide

/-- Claim C7, amended: only the triangular part of `a` is symmetric —
`a(i,j) + j = a(j,i) + i` for all `i, j`, so `a(i,j) = a(j,i)` exactly
when `i = j`; the matrix is not symmetric (which is why the algorithm
works with `B = Aᵀ·A` rather than `A` itself). -/
theorem claim_C7 (i j : ℕ) : a i j + j = a j i + i := by
  simp only [a]
  rw [Nat.add_comm j i]
  omega

/-- Claim C8, counterexample: invoked with no problem-size argument
(`toNumber none = NaN`) on a 4-cpu host, the program does *not* fail
before spawning workers with a non-zero exit status: it spawns all 4
workers and exits with status 0 (printing `NaN`). -/
theorem claim_C8_cex :
    ¬ ((mainThreadJS (toNumber none) 4).workersSpawned = 0 ∧
      (mainThreadJS (toNumber none) 4).exitCode ≠ 0) := by
  rintro ⟨h1, h2⟩
  exact h2 rfl

/-- Claim C8, amended: a missing or non-numeric problem size coerces to
NaN and is never validated: the program spawns one worker per cpu
anyway, every loop bounded by `n` runs zero iterations, the final
reduction yields `0/0`, and the program prints the line `NaN` and
terminates normally with exit status 0. -/
theorem claim_C8 (arg : Option String) (P : ℕ)
    (h : toNumber arg = JNum.nan) :
    mainThreadJS (toNumber arg) P = ⟨P, JSOut.nanLine, 0⟩ := by
  rw [h]
  rfl

/-- Witness for the amended C8 with the non-numeric argument
`"spectral"` on a 3-cpu host. -/
theorem claim_C8_witness :
    toNumber (some "spectral") = JNum.nan ∧
      mainThreadJS (toNumber (some "spectral")) 3 =
        ⟨3, JSOut.nanLine, 0⟩ :=
  ⟨rfl, claim_C8 (some "spectral") 3 rfl⟩

/-- Claim C9: a worker whose `data` is still `undefined` (no `Sab`
received) that receives an `Au` or `Atu` work unit raises the explicit
errors `Au received before Sab` / `Atu received before Sab`: the request
is not silently ignored and produces no completion message. -/
theorem claim_C9 (n s e : ℕ) (v1 v2 : UVWField) :
    workerHandle n s e none (.auMsg v1 v2) =
      .error "Au received before Sab" ∧
    workerHandle n s e none (.atuMsg v1 v2) =
      .error "Atu received before Sab" :=
  ⟨rfl, rfl⟩

/-- Claim C10: `a(i, j)` is at least 1 for all `i, j`, hence the divisor
`aQ i j` used in `au`/`atu` is never zero. -/
theorem claim_C10 (i j : ℕ) : 1 ≤ a i j ∧ aQ i j ≠ 0 :=
  ⟨a_pos i j, aQ_ne_zero i j⟩

end SpectralNorm
